import Mathlib

/-!
Verification of qq.js (asynchronous queue, deep and shallow resolver,
ordered and opportunistic reducers) against its specification.

The embedding translates the source into pure Lean definitions.  All
asynchronous behaviour is represented by the eventual outcomes of the
futures involved: a future is represented by the value or reason it
eventually settles with.  The opportunistic reducer is the exception:
its body dereferences an identifier that no scope binds, so every call
faults synchronously before any future exists; its claims are settled
against a scope model of the module rather than a behavioural one.
-/

namespace QQModel

/-! ## The asynchronous queue (qq.js lines 39-68)

The queue is a linked list of cells threaded through futures.  The
producer side holds `ends.resolve`, the capability to resolve the
current pending tail; the consumer side holds `ends.promise`, a future
for the cell at the current cursor position.

* `put(value)` (lines 43-50) resolves the pending tail to the cell
  `(head value, tail fresh-pending)` and retargets `ends.resolve` at the
  fresh tail.  In the model this appends `value` to the resolved chain.
  Once `close` has resolved the live chain terminal, the deferred that
  `ends.resolve` points at is no longer reachable from the consumer
  chain, so a later `put` resolves an unreachable cell: the model
  records those values in the separate `dead` list, which no observable
  reads.
* `get()` (lines 51-59) returns a future for the head of the cell at
  the cursor and advances the cursor to its tail; the model counts the
  number of issued gets, so the i-th issued get reads position i.
* `close(reason)` (lines 61-66) resolves the pending tail to the
  self-referential cell whose head is the rejection `reason`; a second
  close resolves an already resolved (or unreachable) deferred, which
  is a no-op for the consumer chain, so only the first close is
  recorded.

The eventual outcome of the i-th issued `get` is determined by the
final chain: head i of the chain if i puts arrived before close,
otherwise the close rejection if the queue was closed, otherwise the
future stays pending.
-/

inductive QOp (α ρ : Type) where
  | put (v : α)
  | get
  | close (r : ρ)
deriving DecidableEq

structure QueueState (α ρ : Type) where
  /-- heads of the cells resolved on the chain reachable by consumers -/
  chain : List α
  /-- the reason of the first close, once the terminal cell is resolved -/
  terminal : Option ρ
  /-- heads of cells resolved through `ends.resolve` after close; these
      cells are unreachable from the consumer chain -/
  dead : List α
  /-- number of issued `get` calls: the consumer cursor position -/
  gets : Nat
deriving DecidableEq

def initQ {α ρ : Type} : QueueState α ρ := ⟨[], none, [], 0⟩

def stepOp {α ρ : Type} (s : QueueState α ρ) : QOp α ρ → QueueState α ρ
  | .put v =>
      match s.terminal with
      | none => { s with chain := s.chain ++ [v] }
      | some _ => { s with dead := s.dead ++ [v] }
  | .get => { s with gets := s.gets + 1 }
  | .close r =>
      match s.terminal with
      | none => { s with terminal := some r }
      | some _ => s

def runOps {α ρ : Type} (ops : List (QOp α ρ)) : QueueState α ρ :=
  ops.foldl stepOp initQ

/-- Eventual outcome of the future returned by a `get`. -/
inductive GetOutcome (α ρ : Type) where
  | fulfilled (v : α)
  | rejected (r : ρ)
  | pending
deriving DecidableEq

/-- The i-th issued `get` returns `Q.get(cell_i, "head")`: the head of the
i-th cell of the chain, a rejection with the close reason past the end of
a closed chain, and a forever pending future past the end of an open
chain. -/
def getOutcome {α ρ : Type} (s : QueueState α ρ) (i : Nat) : GetOutcome α ρ :=
  match s.chain[i]? with
  | some v => .fulfilled v
  | none =>
      match s.terminal with
      | some r => .rejected r
      | none => .pending

def isRejection {α ρ : Type} : GetOutcome α ρ → Bool
  | .rejected _ => true
  | _ => false

/-- The `closed` deferred (line 41) is resolved inside the rejection
handler installed by `get` (lines 54-57): it fulfills exactly when the
future returned by some issued `get` settles as a rejection. -/
def closedObserved {α ρ : Type} (s : QueueState α ρ) : Prop :=
  ∃ i < s.gets, isRejection (getOutcome s i) = true

instance {α ρ : Type} (s : QueueState α ρ) : Decidable (closedObserved s) := by
  unfold closedObserved
  infer_instance

/-- Values supplied by `put` before the first `close`: the heads of the
cells that become reachable on the consumer chain. -/
def putsBefore {α ρ : Type} : List (QOp α ρ) → List α
  | [] => []
  | .put v :: rest => v :: putsBefore rest
  | .get :: rest => putsBefore rest
  | .close _ :: _ => []

/-- Reason of the first `close` in the trace, if any. -/
def firstClose {α ρ : Type} : List (QOp α ρ) → Option ρ
  | [] => none
  | .close r :: _ => some r
  | .put _ :: rest => firstClose rest
  | .get :: rest => firstClose rest

/-- Number of `get` calls in the trace. -/
def numGets {α ρ : Type} : List (QOp α ρ) → Nat
  | [] => 0
  | .get :: rest => numGets rest + 1
  | .put _ :: rest => numGets rest
  | .close _ :: rest => numGets rest

/-! ## The deep and shallow resolver (qq.js lines 176-220)

Values are composite JavaScript structures whose nodes may be pending
futures.  A future is represented by the value it eventually fulfills
with (`future v`) or the reason it rejects with (`broken r`); `Q.when`
flattening makes a future of a future observe the inner outcome.
Non-container values (`typeof object !== "object"`, `null`, and
`instanceof Date`, lines 198-202) are `prim` and `date`.  Arrays are
`arr`.  A plain object is `obj own proto`: its own enumerable
properties and the enumerable properties of its prototype chain.  The
`for (var i in object)` loop of `consolidate` (line 206) enumerates the
own properties in insertion order followed by the inherited enumerable
properties that are not shadowed by an own key; the captured values are
read before any write-back happens, and the write `object[i] = value`
(line 210) always creates or updates an own property, leaving the
prototype itself untouched.  Member resolutions are sequenced in
iteration order and the first rejection aborts the whole resolution
(the `synchronize` chain, lines 205-217). -/

inductive PVal where
  | prim (n : Int)
  | date (n : Int)
  | arr (xs : List PVal)
  | obj (own : List (String × PVal)) (proto : List (String × PVal))
  | future (v : PVal)
  | broken (r : String)

/-- Membership test on the list of own keys (shadowing test of `for in`). -/
def memStr (k : String) : List String → Bool
  | [] => false
  | k2 :: rest => if k2 = k then true else memStr k rest

/-- `Q.when(value, ...)` on a plain value or future: wait for the value
itself, without recursing into containers.  This is the member action of
`shallow` (lines 176-180), whose callback is the identity. -/
def waitFor : PVal → Except String PVal
  | .future v => waitFor v
  | .broken r => .error r
  | .prim n => .ok (.prim n)
  | .date n => .ok (.date n)
  | .arr xs => .ok (.arr xs)
  | .obj own proto => .ok (.obj own proto)

mutual

/-- `deep` (lines 192-194): `consolidate(object, deep)`. -/
def deep : PVal → Except String PVal
  | .future v => deep v
  | .broken r => .error r
  | .prim n => .ok (.prim n)
  | .date n => .ok (.date n)
  | .arr xs =>
      match deepList xs with
      | .error r => .error r
      | .ok ys => .ok (.arr ys)
  | .obj own proto =>
      match deepMembers own with
      | .error r => .error r
      | .ok own2 =>
          match deepProto (own.map Prod.fst) proto with
          | .error r => .error r
          | .ok extra => .ok (.obj (own2 ++ extra) proto)

/-- Member loop of `consolidate` over array indices. -/
def deepList : List PVal → Except String (List PVal)
  | [] => .ok []
  | x :: xs =>
      match deep x with
      | .error r => .error r
      | .ok y =>
          match deepList xs with
          | .error r => .error r
          | .ok ys => .ok (y :: ys)

/-- Member loop of `consolidate` over the own properties of an object. -/
def deepMembers : List (String × PVal) → Except String (List (String × PVal))
  | [] => .ok []
  | (k, x) :: xs =>
      match deep x with
      | .error r => .error r
      | .ok y =>
          match deepMembers xs with
          | .error r => .error r
          | .ok ys => .ok ((k, y) :: ys)

/-- Member loop of `consolidate` over the inherited enumerable
properties that are not shadowed by an own key; the resolved members are
written back as own properties. -/
def deepProto (shadow : List String) : List (String × PVal) → Except String (List (String × PVal))
  | [] => .ok []
  | (k, x) :: xs =>
      if memStr k shadow then deepProto shadow xs
      else
        match deep x with
        | .error r => .error r
        | .ok y =>
            match deepProto shadow xs with
            | .error r => .error r
            | .ok ys => .ok ((k, y) :: ys)

end

/-- Member loop of `consolidate` with the identity callback of `shallow`. -/
def shallowList : List PVal → Except String (List PVal)
  | [] => .ok []
  | x :: xs =>
      match waitFor x with
      | .error r => .error r
      | .ok y =>
          match shallowList xs with
          | .error r => .error r
          | .ok ys => .ok (y :: ys)

def shallowMembers : List (String × PVal) → Except String (List (String × PVal))
  | [] => .ok []
  | (k, x) :: xs =>
      match waitFor x with
      | .error r => .error r
      | .ok y =>
          match shallowMembers xs with
          | .error r => .error r
          | .ok ys => .ok ((k, y) :: ys)

def shallowProto (shadow : List String) :
    List (String × PVal) → Except String (List (String × PVal))
  | [] => .ok []
  | (k, x) :: xs =>
      if memStr k shadow then shallowProto shadow xs
      else
        match waitFor x with
        | .error r => .error r
        | .ok y =>
            match shallowProto shadow xs with
            | .error r => .error r
            | .ok ys => .ok ((k, y) :: ys)

/-- `shallow` (lines 176-180): `consolidate(object, identity)`. -/
def shallow : PVal → Except String PVal
  | .future v => shallow v
  | .broken r => .error r
  | .prim n => .ok (.prim n)
  | .date n => .ok (.date n)
  | .arr xs =>
      match shallowList xs with
      | .error r => .error r
      | .ok ys => .ok (.arr ys)
  | .obj own proto =>
      match shallowMembers own with
      | .error r => .error r
      | .ok own2 =>
          match shallowProto (own.map Prod.fst) proto with
          | .error r => .error r
          | .ok extra => .ok (.obj (own2 ++ extra) proto)

mutual

/-- Modelled from the spec sentence of property C5: a resolver that
iterates only the own keys and indices of each container, so that
members reachable only through inherited properties are neither resolved
nor written back.  Stated for comparison with `deep`, which is the
translation of the source. -/
def deepOwnOnly : PVal → Except String PVal
  | .future v => deepOwnOnly v
  | .broken r => .error r
  | .prim n => .ok (.prim n)
  | .date n => .ok (.date n)
  | .arr xs =>
      match deepOwnOnlyList xs with
      | .error r => .error r
      | .ok ys => .ok (.arr ys)
  | .obj own proto =>
      match deepOwnOnlyMembers own with
      | .error r => .error r
      | .ok own2 => .ok (.obj own2 proto)

def deepOwnOnlyList : List PVal → Except String (List PVal)
  | [] => .ok []
  | x :: xs =>
      match deepOwnOnly x with
      | .error r => .error r
      | .ok y =>
          match deepOwnOnlyList xs with
          | .error r => .error r
          | .ok ys => .ok (y :: ys)

def deepOwnOnlyMembers : List (String × PVal) → Except String (List (String × PVal))
  | [] => .ok []
  | (k, x) :: xs =>
      match deepOwnOnly x with
      | .error r => .error r
      | .ok y =>
          match deepOwnOnlyMembers xs with
          | .error r => .error r
          | .ok ys => .ok ((k, y) :: ys)

end

/-- Modelled from the spec sentence of property C5, `shallow` variant:
only own members are waited for and written back. -/
def shallowOwnOnly : PVal → Except String PVal
  | .future v => shallowOwnOnly v
  | .broken r => .error r
  | .prim n => .ok (.prim n)
  | .date n => .ok (.date n)
  | .arr xs =>
      match shallowList xs with
      | .error r => .error r
      | .ok ys => .ok (.arr ys)
  | .obj own proto =>
      match shallowMembers own with
      | .error r => .error r
      | .ok own2 => .ok (.obj own2 proto)

mutual

/-- A structure is ground when it is already fully resolved: it contains
no future and no rejection anywhere, and no node carries inherited
enumerable properties (the composite values of the data model of the
spec are trees of plain containers and leaves). -/
def groundB : PVal → Bool
  | .prim _ => true
  | .date _ => true
  | .arr xs => groundListB xs
  | .obj own proto => proto.isEmpty && groundMembersB own
  | .future _ => false
  | .broken _ => false

def groundListB : List PVal → Bool
  | [] => true
  | x :: xs => groundB x && groundListB xs

def groundMembersB : List (String × PVal) → Bool
  | [] => true
  | (_, x) :: xs => groundB x && groundMembersB xs

end

mutual

/-- No object node reachable through futures, arrays and own members
carries inherited enumerable properties. -/
def protoFreeB : PVal → Bool
  | .prim _ => true
  | .date _ => true
  | .arr xs => protoFreeListB xs
  | .obj own proto => proto.isEmpty && protoFreeMembersB own
  | .future v => protoFreeB v
  | .broken _ => true

def protoFreeListB : List PVal → Bool
  | [] => true
  | x :: xs => protoFreeB x && protoFreeListB xs

def protoFreeMembersB : List (String × PVal) → Bool
  | [] => true
  | (_, x) :: xs => protoFreeB x && protoFreeMembersB xs

end

/-- Own property list of an object value. -/
def ownProps : PVal → List (String × PVal)
  | .obj own _ => own
  | _ => []

/-! ## Ordered reducers (qq.js lines 236-258)

`reducer(direction)` folds the values with the ECMAScript `reduce` of
the array, threading `Q.when` around the accumulator and around each
element: the callback is invoked on position i only after the
accumulator of positions below i and the element at position i have
both settled, and a rejection of either propagates past the remaining
callbacks.  Each element and the basis are represented by their
settlement outcome, and a promise-returning or throwing callback by an
`Except`-valued function; the model is therefore a function of the
settlement outcomes alone, which is why the result is independent of
the order in which the input futures settle. -/

def reduceLeft {ε α β : Type} (values : List (Except ε α))
    (callback : β → α → Except ε β) (basis : Except ε β) : Except ε β :=
  values.foldl (fun acc v => acc.bind (fun a => v.bind (fun x => callback a x))) basis

/-- `reduceRight` (line 242): the same fold from the right. -/
def reduceRight {ε α β : Type} (values : List (Except ε α))
    (callback : β → α → Except ε β) (basis : Except ε β) : Except ε β :=
  values.reverse.foldl (fun acc v => acc.bind (fun a => v.bind (fun x => callback a x))) basis

/-! ## Scope model for the body of `reduce` (qq.js lines 266-305)

The module is the function body wrapped at lines 1 and 335: its scope
binds the two wrapper parameters and the var and function declarations
of the body.  The body of `reduce` references, besides its own
parameters `values`, `callback`, `accumulator`, `that` and its local
declarations `accumulators`, `reduction` and the inner `reduce`, the
outer identifiers `Q` and `UTIL`.  `UTIL` is bound neither in the
module scope nor by the wrapper, and the documented external capability
(the `q` module of line 3) supplies the deferred constructor and
`when`, `get`, `post`, `reject` and friends, not a `shallow` member.
Dereferencing an unbound identifier is a synchronous fault in the
language, thrown to the caller of `reduce` before any future is
created. -/

/-- Identifiers bound in the module scope of qq.js: the wrapper
parameters (line 1) and the var and function declarations of the module
body (lines 3, 5, 8, 39, 176, 192, 196, 236, 242, 244, 266). -/
def moduleScopeIdents : List String :=
  ["require", "exports", "Q", "has", "name", "Queue", "shallow", "deep",
   "consolidate", "reduceLeft", "reduceRight", "reducer", "reduce"]

/-- Identifiers referenced by the body of `reduce` (lines 266-305) that
are not bound by `reduce` itself (parameters, `accumulators`,
`reduction`, the inner `reduce`) and must resolve in an enclosing
scope. -/
def reduceOuterIdents : List String := ["Q", "UTIL"]

/-- Members of the external future capability described by the spec:
what `require("q")` supplies. -/
def qCapabilityMembers : List String :=
  ["defer", "when", "get", "put", "post", "del", "reject", "ref", "isPromise", "keys"]

end QQModel

namespace QQModel

/-! ## Queue lemmas -/

theorem foldl_stepOp_closed {α ρ : Type} (ops : List (QOp α ρ))
    (s : QueueState α ρ) (r : ρ) (h : s.terminal = some r) :
    (ops.foldl stepOp s).chain = s.chain ∧
    (ops.foldl stepOp s).terminal = some r ∧
    (ops.foldl stepOp s).gets = s.gets + numGets ops := by
  induction ops generalizing s with
  | nil => simp [numGets, h]
  | cons op rest ih =>
    obtain ⟨ch, term, dd, g⟩ := s
    dsimp only at h
    subst h
    cases op with
    | put v =>
        simpa [stepOp, numGets, Nat.add_assoc] using ih ⟨ch, some r, dd ++ [v], g⟩ rfl
    | get =>
        have h3 := ih ⟨ch, some r, dd, g + 1⟩ rfl
        simp only [List.foldl_cons, stepOp]
        refine ⟨h3.1, h3.2.1, ?_⟩
        rw [h3.2.2]
        simp only [numGets]
        omega
    | close r2 =>
        simpa [stepOp, numGets] using ih ⟨ch, some r, dd, g⟩ rfl

theorem foldl_stepOp_open {α ρ : Type} (ops : List (QOp α ρ))
    (s : QueueState α ρ) (h : s.terminal = none) :
    (ops.foldl stepOp s).chain = s.chain ++ putsBefore ops ∧
    (ops.foldl stepOp s).terminal = firstClose ops ∧
    (ops.foldl stepOp s).gets = s.gets + numGets ops := by
  induction ops generalizing s with
  | nil => simp [putsBefore, firstClose, numGets, h]
  | cons op rest ih =>
    obtain ⟨ch, term, dd, g⟩ := s
    dsimp only at h
    subst h
    cases op with
    | put v =>
        have h3 := ih ⟨ch ++ [v], none, dd, g⟩ rfl
        simp only [List.foldl_cons, stepOp, putsBefore, firstClose, numGets]
        refine ⟨?_, h3.2.1, h3.2.2⟩
        rw [h3.1]
        simp
    | get =>
        have h3 := ih ⟨ch, none, dd, g + 1⟩ rfl
        simp only [List.foldl_cons, stepOp, putsBefore, firstClose]
        refine ⟨h3.1, h3.2.1, ?_⟩
        rw [h3.2.2]
        simp only [numGets]
        omega
    | close r =>
        have h3 := foldl_stepOp_closed rest ⟨ch, some r, dd, g⟩ r rfl
        simp only [List.foldl_cons, stepOp, putsBefore, firstClose, numGets]
        exact ⟨by rw [h3.1]; simp, h3.2.1, h3.2.2⟩

theorem runOps_chain {α ρ : Type} (ops : List (QOp α ρ)) :
    (runOps ops).chain = putsBefore ops := by
  simpa [runOps, initQ] using (foldl_stepOp_open ops initQ rfl).1

theorem runOps_terminal {α ρ : Type} (ops : List (QOp α ρ)) :
    (runOps ops).terminal = firstClose ops :=
  (foldl_stepOp_open ops initQ rfl).2.1

theorem runOps_gets {α ρ : Type} (ops : List (QOp α ρ)) :
    (runOps ops).gets = numGets ops := by
  simpa [runOps, initQ] using (foldl_stepOp_open ops initQ rfl).2.2

/-- C1: For every sequence of put(v1), ..., put(vn) calls on a Queue,
interleaved arbitrarily with get() calls, the future returned by the i-th
get() call resolves to v_i, regardless of whether that get was issued
before or after the matching put.  (Outcomes are the eventual ones
determined by the whole trace, so a get issued before its put still
resolves to the matching value.) -/
theorem queue_fifo {α ρ : Type} (ops : List (QOp α ρ))
    (hnc : firstClose ops = none) (i : Nat)
    (hi : i < (putsBefore ops).length) (hg : i < (runOps ops).gets) :
    getOutcome (runOps ops) i = GetOutcome.fulfilled ((putsBefore ops).get ⟨i, hi⟩) := by
  unfold getOutcome
  rw [runOps_chain ops]
  rw [List.getElem?_eq_getElem hi]
  simp [List.get_eq_getElem]

theorem queue_fifo_witness :
    getOutcome (runOps [QOp.get, QOp.put (5 : Int), QOp.put 7,
        (QOp.get : QOp Int String)]) 1 = GetOutcome.fulfilled 7 :=
  queue_fifo _ (by decide) 1 (by decide) (by decide)

theorem firstClose_append {α ρ : Type} (ops rest : List (QOp α ρ)) (r : ρ)
    (h : firstClose ops = some r) : firstClose (ops ++ rest) = some r := by
  induction ops with
  | nil => simp [firstClose] at h
  | cons op t ih =>
    cases op with
    | put v => simp only [firstClose] at h; simpa [firstClose] using ih h
    | get => simp only [firstClose] at h; simpa [firstClose] using ih h
    | close r2 => simp only [firstClose] at h ⊢; exact h

theorem putsBefore_append_closed {α ρ : Type} (ops rest : List (QOp α ρ)) (r : ρ)
    (h : firstClose ops = some r) : putsBefore (ops ++ rest) = putsBefore ops := by
  induction ops with
  | nil => simp [firstClose] at h
  | cons op t ih =>
    cases op with
    | put v => simp only [firstClose] at h; simp [putsBefore, ih h]
    | get => simp only [firstClose] at h; simp [putsBefore, ih h]
    | close r2 => simp [putsBefore]

theorem numGets_append {α ρ : Type} (ops rest : List (QOp α ρ)) :
    numGets (ops ++ rest) = numGets ops + numGets rest := by
  induction ops with
  | nil => simp [numGets]
  | cons op t ih =>
    cases op with
    | put v => simp [numGets, ih]
    | get => simp [numGets, ih]; omega
    | close r2 => simp [numGets, ih]

theorem getOutcome_past {α ρ : Type} (s : QueueState α ρ) (i : Nat) (r : ρ)
    (h1 : s.chain.length ≤ i) (h2 : s.terminal = some r) :
    getOutcome s i = GetOutcome.rejected r := by
  unfold getOutcome
  rw [List.getElem?_eq_none h1, h2]

/-- C2: After close(reason) is called on a Queue, every get() issued after
all previously queued items have been drained returns a future that
rejects with reason, and this holds for an unbounded number of subsequent
get() calls (the closed state is terminal and absorbing): the same holds
in every extension of the trace. -/
theorem queue_close_absorbing {α ρ : Type} (ops : List (QOp α ρ)) (r : ρ)
    (h : firstClose ops = some r) :
    (∀ i, (putsBefore ops).length ≤ i → i < (runOps ops).gets →
        getOutcome (runOps ops) i = GetOutcome.rejected r) ∧
    (∀ rest : List (QOp α ρ), ∀ i, (putsBefore ops).length ≤ i →
        i < (runOps (ops ++ rest)).gets →
        getOutcome (runOps (ops ++ rest)) i = GetOutcome.rejected r) := by
  constructor
  · intro i hi _
    refine getOutcome_past _ i r ?_ ?_
    · rw [runOps_chain]; exact hi
    · rw [runOps_terminal]; exact h
  · intro rest i hi _
    refine getOutcome_past _ i r ?_ ?_
    · rw [runOps_chain, putsBefore_append_closed ops rest r h]; exact hi
    · rw [runOps_terminal]; exact firstClose_append ops rest r h

theorem queue_close_absorbing_witness :
    getOutcome (runOps ([QOp.put (1 : Int), QOp.close "X", QOp.get, QOp.get,
        QOp.get] ++ [QOp.put 9, QOp.get])) 3 = GetOutcome.rejected "X" :=
  (queue_close_absorbing [QOp.put (1 : Int), QOp.close "X", QOp.get, QOp.get,
      QOp.get] "X" (by decide)).2 [QOp.put 9, QOp.get] 3 (by decide) (by decide)

/-- C3: The closed future fulfills only after some consumer has observed
the close rejection, never merely because close() was invoked: after
close(reason) with no get() issued past the queued items, closed is still
pending, and it fulfills once gets drain past the queued items to the
rejection. -/
theorem queue_closed_signal {α ρ : Type} (ops : List (QOp α ρ)) (r : ρ)
    (h1 : (runOps ops).terminal = some r)
    (h2 : (runOps ops).gets ≤ (runOps ops).chain.length) :
    ¬ closedObserved (runOps ops) ∧
    closedObserved (runOps (ops ++ List.replicate
        ((runOps ops).chain.length + 1 - (runOps ops).gets) QOp.get)) := by
  constructor
  · rintro ⟨i, hi, hrej⟩
    have hlt : i < (runOps ops).chain.length := lt_of_lt_of_le hi h2
    unfold getOutcome at hrej
    rw [List.getElem?_eq_getElem hlt] at hrej
    simp [isRejection] at hrej
  · set k := (runOps ops).chain.length + 1 - (runOps ops).gets with hk
    have hterm2 : (runOps (ops ++ List.replicate k QOp.get)).terminal = some r := by
      rw [runOps_terminal]
      refine firstClose_append ops _ r ?_
      rw [← runOps_terminal]; exact h1
    have hchain2 : (runOps (ops ++ List.replicate k QOp.get)).chain = (runOps ops).chain := by
      rw [runOps_chain, runOps_chain]
      refine putsBefore_append_closed ops _ r ?_
      rw [← runOps_terminal]; exact h1
    have hgets2 : (runOps (ops ++ List.replicate k QOp.get)).gets =
        (runOps ops).gets + k := by
      rw [runOps_gets, numGets_append, ← runOps_gets]
      congr 1
      induction k with
      | zero => simp [numGets]
      | succ n ih => simp [List.replicate_succ, numGets, ih]
    refine ⟨(runOps ops).chain.length, ?_, ?_⟩
    · omega
    · rw [getOutcome_past _ _ r (by rw [hchain2]) hterm2]
      simp [isRejection]

theorem queue_closed_signal_witness :
    ¬ closedObserved (runOps [QOp.put (1 : Int), (QOp.close "X" : QOp Int String)]) ∧
    closedObserved (runOps ([QOp.put (1 : Int), (QOp.close "X" : QOp Int String)] ++
        List.replicate ((runOps [QOp.put (1 : Int),
          (QOp.close "X" : QOp Int String)]).chain.length + 1 -
          (runOps [QOp.put (1 : Int), (QOp.close "X" : QOp Int String)]).gets) QOp.get)) :=
  queue_closed_signal [QOp.put (1 : Int), QOp.close "X"] "X" (by decide) (by decide)

theorem stepOp_obs {α ρ : Type} (s t : QueueState α ρ) (op : QOp α ρ)
    (hc : s.chain = t.chain) (ht : s.terminal = t.terminal) (hg : s.gets = t.gets) :
    (stepOp s op).chain = (stepOp t op).chain ∧
    (stepOp s op).terminal = (stepOp t op).terminal ∧
    (stepOp s op).gets = (stepOp t op).gets := by
  cases op with
  | put v =>
      unfold stepOp
      rw [ht]
      cases t.terminal with
      | none => exact ⟨by simp [hc], by simp [ht], by simp [hg]⟩
      | some r2 => exact ⟨by simp [hc], by simp [ht], by simp [hg]⟩
  | get => exact ⟨by simp [stepOp, hc], by simp [stepOp, ht], by simp [stepOp, hg]⟩
  | close r2 =>
      unfold stepOp
      rw [ht]
      cases t.terminal with
      | none => exact ⟨by simp [hc], by simp, by simp [hg]⟩
      | some r3 => exact ⟨by simp [hc], by simp [ht], by simp [hg]⟩

theorem foldl_stepOp_obs {α ρ : Type} (rest : List (QOp α ρ)) (s t : QueueState α ρ)
    (hc : s.chain = t.chain) (ht : s.terminal = t.terminal) (hg : s.gets = t.gets) :
    (rest.foldl stepOp s).chain = (rest.foldl stepOp t).chain ∧
    (rest.foldl stepOp s).terminal = (rest.foldl stepOp t).terminal ∧
    (rest.foldl stepOp s).gets = (rest.foldl stepOp t).gets := by
  induction rest generalizing s t with
  | nil => exact ⟨hc, ht, hg⟩
  | cons op tail ih =>
      have h := stepOp_obs s t op hc ht hg
      simpa using ih (stepOp s op) (stepOp t op) h.1 h.2.1 h.2.2

/-- C10: Calling put(value) on a Queue after close(reason) has been called
leaves the sequence of values and rejections observable through get()
unchanged: put after close resolves a deferred that is unreachable from
the consumer chain, so for any continuation of the trace every issued
get has the same eventual outcome with or without the extra put. -/
theorem queue_put_after_close_noop {α ρ : Type} (ops : List (QOp α ρ)) (v : α)
    (rest : List (QOp α ρ)) (r : ρ) (h : (runOps ops).terminal = some r) :
    ∀ i, getOutcome (runOps (ops ++ QOp.put v :: rest)) i =
        getOutcome (runOps (ops ++ rest)) i := by
  intro i
  have hfold1 : runOps (ops ++ QOp.put v :: rest) =
      rest.foldl stepOp (stepOp (runOps ops) (QOp.put v)) := by
    simp [runOps, List.foldl_append]
  have hfold2 : runOps (ops ++ rest) = rest.foldl stepOp (runOps ops) := by
    simp [runOps, List.foldl_append]
  have hstep : stepOp (runOps ops) (QOp.put v) =
      { runOps ops with dead := (runOps ops).dead ++ [v] } := by
    simp [stepOp, h]
  have hobs := foldl_stepOp_obs rest (stepOp (runOps ops) (QOp.put v)) (runOps ops)
    (by rw [hstep]) (by rw [hstep]) (by rw [hstep])
  rw [hfold1, hfold2]
  unfold getOutcome
  rw [hobs.1, hobs.2.1]

/-! ## Resolver lemmas -/

mutual

theorem deep_ground : ∀ (v : PVal), groundB v = true → deep v = Except.ok v
  | .prim _, _ => by simp [deep]
  | .date _, _ => by simp [deep]
  | .arr xs, h => by
      simp only [deep]
      rw [deepList_ground xs (by simpa [groundB] using h)]
  | .obj own proto, h => by
      have hp : proto = [] := by
        have := (by simpa [groundB] using h : proto.isEmpty = true ∧ groundMembersB own = true).1
        simpa [List.isEmpty_iff] using this
      have hm : groundMembersB own = true :=
        (by simpa [groundB] using h : proto.isEmpty = true ∧ groundMembersB own = true).2
      subst hp
      simp only [deep]
      rw [deepMembers_ground own hm]
      simp [deepProto]
  | .future _, h => by simp [groundB] at h
  | .broken _, h => by simp [groundB] at h

theorem deepList_ground : ∀ (xs : List PVal), groundListB xs = true →
    deepList xs = Except.ok xs
  | [], _ => by simp [deepList]
  | x :: xs, h => by
      have hx : groundB x = true := (by simpa [groundListB] using h :
        groundB x = true ∧ groundListB xs = true).1
      have hxs : groundListB xs = true := (by simpa [groundListB] using h :
        groundB x = true ∧ groundListB xs = true).2
      simp only [deepList]
      rw [deep_ground x hx, deepList_ground xs hxs]

theorem deepMembers_ground : ∀ (xs : List (String × PVal)), groundMembersB xs = true →
    deepMembers xs = Except.ok xs
  | [], _ => by simp [deepMembers]
  | (k, x) :: xs, h => by
      have hx : groundB x = true := (by simpa [groundMembersB] using h :
        groundB x = true ∧ groundMembersB xs = true).1
      have hxs : groundMembersB xs = true := (by simpa [groundMembersB] using h :
        groundB x = true ∧ groundMembersB xs = true).2
      simp only [deepMembers]
      rw [deep_ground x hx, deepMembers_ground xs hxs]

end

/-- C4: deep resolution of an already-fully-resolved structure yields an
equal structure, and deep resolution of the nested structure
a maps-to Future 1, b maps-to the array of Future 2 and Future 3 yields
a future fulfilling with a maps-to 1, b maps-to the array of 2 and 3. -/
theorem deep_idempotent_and_nested :
    (∀ v : PVal, groundB v = true → deep v = Except.ok v) ∧
    deep (PVal.obj [("a", PVal.future (PVal.prim 1)),
        ("b", PVal.arr [PVal.future (PVal.prim 2), PVal.future (PVal.prim 3)])] [])
      = Except.ok (PVal.obj [("a", PVal.prim 1),
        ("b", PVal.arr [PVal.prim 2, PVal.prim 3])] []) := by
  refine ⟨deep_ground, ?_⟩
  simp [deep, deepMembers, deepList, deepProto]

theorem deep_idempotent_and_nested_witness :
    groundB (PVal.arr [PVal.prim 4, PVal.obj [("k", PVal.prim 5)] []]) = true ∧
    deep (PVal.arr [PVal.prim 4, PVal.obj [("k", PVal.prim 5)] []])
      = Except.ok (PVal.arr [PVal.prim 4, PVal.obj [("k", PVal.prim 5)] []]) :=
  ⟨by simp [groundB, groundListB, groundMembersB],
    deep_idempotent_and_nested.1 _ (by simp [groundB, groundListB, groundMembersB])⟩

/-- C5 counterexample: a member reachable only through the prototype is
resolved by `deep` and written back as an own property, while the
spec-modelled own-keys-only resolver leaves the object untouched. -/
theorem consolidate_inherited_cex :
    deep (PVal.obj [] [("p", PVal.future (PVal.prim 1))])
      = Except.ok (PVal.obj [("p", PVal.prim 1)] [("p", PVal.future (PVal.prim 1))]) ∧
    deepOwnOnly (PVal.obj [] [("p", PVal.future (PVal.prim 1))])
      = Except.ok (PVal.obj [] [("p", PVal.future (PVal.prim 1))]) ∧
    (ownProps (PVal.obj [("p", PVal.prim 1)] [("p", PVal.future (PVal.prim 1))])).length = 1 ∧
    (ownProps (PVal.obj [] [("p", PVal.future (PVal.prim 1))])).length = 0 := by
  refine ⟨?_, ?_, rfl, rfl⟩
  · simp [deep, deepMembers, deepProto, memStr]
  · simp [deepOwnOnly, deepOwnOnlyMembers]

mutual

theorem deep_ownOnly : ∀ (v : PVal), protoFreeB v = true → deep v = deepOwnOnly v
  | .prim _, _ => by simp [deep, deepOwnOnly]
  | .date _, _ => by simp [deep, deepOwnOnly]
  | .future v, h => by
      simp only [deep, deepOwnOnly]
      exact deep_ownOnly v (by simpa [protoFreeB] using h)
  | .broken _, _ => by simp [deep, deepOwnOnly]
  | .arr xs, h => by
      simp only [deep, deepOwnOnly]
      rw [deepList_ownOnly xs (by simpa [protoFreeB] using h)]
  | .obj own proto, h => by
      have hp : proto = [] := by
        have := (by simpa [protoFreeB] using h :
          proto.isEmpty = true ∧ protoFreeMembersB own = true).1
        simpa [List.isEmpty_iff] using this
      have hm : protoFreeMembersB own = true :=
        (by simpa [protoFreeB] using h :
          proto.isEmpty = true ∧ protoFreeMembersB own = true).2
      subst hp
      simp only [deep, deepOwnOnly]
      rw [deepMembers_ownOnly own hm]
      cases deepOwnOnlyMembers own with
      | error r => rfl
      | ok own2 => simp [deepProto]

theorem deepList_ownOnly : ∀ (xs : List PVal), protoFreeListB xs = true →
    deepList xs = deepOwnOnlyList xs
  | [], _ => by simp [deepList, deepOwnOnlyList]
  | x :: xs, h => by
      have hx : protoFreeB x = true := (by simpa [protoFreeListB] using h :
        protoFreeB x = true ∧ protoFreeListB xs = true).1
      have hxs : protoFreeListB xs = true := (by simpa [protoFreeListB] using h :
        protoFreeB x = true ∧ protoFreeListB xs = true).2
      simp only [deepList, deepOwnOnlyList]
      rw [deep_ownOnly x hx, deepList_ownOnly xs hxs]

theorem deepMembers_ownOnly : ∀ (xs : List (String × PVal)), protoFreeMembersB xs = true →
    deepMembers xs = deepOwnOnlyMembers xs
  | [], _ => by simp [deepMembers, deepOwnOnlyMembers]
  | (k, x) :: xs, h => by
      have hx : protoFreeB x = true := (by simpa [protoFreeMembersB] using h :
        protoFreeB x = true ∧ protoFreeMembersB xs = true).1
      have hxs : protoFreeMembersB xs = true := (by simpa [protoFreeMembersB] using h :
        protoFreeB x = true ∧ protoFreeMembersB xs = true).2
      simp only [deepMembers, deepOwnOnlyMembers]
      rw [deep_ownOnly x hx, deepMembers_ownOnly xs hxs]

end

theorem shallow_ownOnly : ∀ (v : PVal), protoFreeB v = true →
    shallow v = shallowOwnOnly v
  | .prim _, _ => by simp [shallow, shallowOwnOnly]
  | .date _, _ => by simp [shallow, shallowOwnOnly]
  | .future v, h => by
      simp only [shallow, shallowOwnOnly]
      exact shallow_ownOnly v (by simpa [protoFreeB] using h)
  | .broken _, _ => by simp [shallow, shallowOwnOnly]
  | .arr xs, _ => by simp [shallow, shallowOwnOnly]
  | .obj own proto, h => by
      have hp : proto = [] := by
        have := (by simpa [protoFreeB] using h :
          proto.isEmpty = true ∧ protoFreeMembersB own = true).1
        simpa [List.isEmpty_iff] using this
      subst hp
      simp only [shallow, shallowOwnOnly]
      cases shallowMembers own with
      | error r => rfl
      | ok own2 => simp [shallowProto]

/-- C5 amended: the resolver iterates the own keys and additionally the
inherited enumerable keys not shadowed by an own key, writing resolved
inherited members back as own properties; only on values none of whose
object nodes carry inherited enumerable properties does it coincide with
the own-keys-only resolution the claim describes. -/
theorem consolidate_own_keys_amended :
    (∀ v : PVal, protoFreeB v = true → deep v = deepOwnOnly v) ∧
    (∀ v : PVal, protoFreeB v = true → shallow v = shallowOwnOnly v) :=
  ⟨deep_ownOnly, shallow_ownOnly⟩

theorem consolidate_own_keys_amended_witness :
    protoFreeB (PVal.obj [("a", PVal.future (PVal.prim 1))] []) = true ∧
    deep (PVal.obj [("a", PVal.future (PVal.prim 1))] [])
      = deepOwnOnly (PVal.obj [("a", PVal.future (PVal.prim 1))] []) :=
  ⟨by simp [protoFreeB, protoFreeMembersB],
    consolidate_own_keys_amended.1 _ (by simp [protoFreeB, protoFreeMembersB])⟩

/-! ## Ordered reducer -/

/-- C6: reduceLeft on the futures of 2, 3, 4 with subtraction and basis
10 yields 1, the strict left-to-right by-position fold: the model
represents each input future by its settlement outcome, so the result
is the same function of the outcomes for every settlement order, and
appending an element to the input always combines it last. -/
theorem reduceLeft_ordered :
    reduceLeft ([Except.ok 2, Except.ok 3, Except.ok 4] : List (Except String Int))
      (fun a b => Except.ok (a - b)) (Except.ok (10 : Int)) = Except.ok 1 ∧
    (∀ (values : List (Except String Int)) (x : Except String Int)
        (callback : Int → Int → Except String Int) (basis : Except String Int),
      reduceLeft (values ++ [x]) callback basis
        = (reduceLeft values callback basis).bind (fun a => x.bind (fun v => callback a v))) := by
  constructor
  · rfl
  · intro values x callback basis
    simp [reduceLeft, List.foldl_append]

/-! ## Synchronous fault in `reduce` -/

/-- C9 failing evaluation: the body of `reduce` references the
identifier UTIL (line 272, UTIL.map), which is bound neither inside
`reduce` nor in the module scope, and the `shallow` member it reads off
the external capability is not supplied by it; dereferencing the
unbound UTIL raises a synchronous ReferenceError to the caller on every
call of `reduce`, before any future is created. -/
theorem reduce_unbound_ident :
    "UTIL" ∈ reduceOuterIdents ∧
    moduleScopeIdents.contains "UTIL" = false ∧
    qCapabilityMembers.contains "shallow" = false := by
  refine ⟨by simp [reduceOuterIdents], by decide, by decide⟩

/-- C7 failing evaluation: reduce([Future(1), Future(2), Future(3),
Future(4)], add) cannot yield a future fulfilling with 10 under any
settlement order, because evaluating the body of `reduce` dereferences
UTIL (line 272) first, an identifier that must resolve in an enclosing
scope of `reduce` yet is absent from the module scope, so the call
raises a synchronous ReferenceError before creating any future: the
same slip recorded for C9. -/
theorem reduce_opportunistic_faults :
    reduceOuterIdents.contains "UTIL" = true ∧
    moduleScopeIdents.contains "UTIL" = false := by
  exact ⟨by decide, by decide⟩

/-- C8 failing evaluation: the combination and rejection-tagging
behaviour of `reduce` is unreachable, because every call raises a
synchronous ReferenceError at the dereference of the unbound UTIL
(line 272) before any element handler, combination attempt or tagged
rejection exists; the completion path would additionally read the
member `shallow` off the external capability, which does not supply
it.  The only identifiers the body resolves outside itself are Q and
UTIL, and the module scope binds neither UTIL nor any map utility. -/
theorem reduce_rejection_faults :
    reduceOuterIdents = ["Q", "UTIL"] ∧
    moduleScopeIdents.contains "UTIL" = false ∧
    qCapabilityMembers.contains "shallow" = false := by
  exact ⟨by decide, by decide, by decide⟩

theorem queue_put_after_close_noop_witness :
    getOutcome (runOps ([QOp.put (1 : Int), QOp.close "X"] ++
        QOp.put (2 : Int) :: [QOp.get, QOp.get])) 1 =
    getOutcome (runOps ([QOp.put (1 : Int), (QOp.close "X" : QOp Int String)] ++
        [QOp.get, QOp.get])) 1 :=
  queue_put_after_close_noop [QOp.put 1, QOp.close "X"] 2 [QOp.get, QOp.get] "X"
    (by decide) 1

end QQModel
